import Mathlib

/-!
# frg::hash_map — a shallow embedding of `include/frg/hash_map.hpp`

Modelling conventions.

* A bucket chain (`chain *` linked through `next`, ending in `nullptr`) is the list of its
  entries from head to tail; `nullptr` is `[]`.  A pointer into a chain is the suffix of the
  chain starting at the node pointed to.
* The bucket array `chain **_table` is a list of chains; `_table[i]` is `table.getD i []`.
* `size_t` fields (`_capacity`, `_size`) are natural numbers: every live node occupies memory,
  so `_size` stays far below `2 ^ 63` and neither `_size++` nor `2 * _size` wraps.
* `(unsigned int)_hasher(key)` is the hash value reduced modulo `2 ^ 32`.
* The hasher is immutable after construction and is passed as a parameter.
* A failed `FRG_ASSERT` is the result `none`.
* The member function `iterator()` is not embedded.  It is declared in the scope of the
  nested class `iterator` and hides that name, so the expressions `iterator(*this, ...)` in
  its body are calls of the member function itself with three arguments; the function
  cannot be instantiated and no call of it yields a cursor.  `operator++` and
  `operator bool` are embedded on cursor values.
-/

set_option linter.unusedSectionVars false

namespace frg

/-- The cast `(unsigned int)x`: truncation to 32 bits. -/
def to_uint (x : Nat) : Nat := x % 2 ^ 32

/-- The fields `_table`, `_capacity`, `_size` of `hash_map`. -/
structure hash_map (K V : Type) where
  table : List (List (K × V))
  capacity : Nat
  size : Nat
deriving DecidableEq, Repr

/-- The fields `item`, `bucket` of `hash_map::iterator` (the `map` reference is passed
separately).  `item` is the chain suffix starting at the node pointed to. -/
structure iterator (K V : Type) where
  item : List (K × V)
  bucket : Nat
deriving DecidableEq, Repr

section ops

variable {K V : Type} [DecidableEq K]

/-- The constructor: `_table(nullptr), _capacity(0), _size(0)`. -/
def hash_map.empty : hash_map K V :=
  { table := [], capacity := 0, size := 0 }

/-- The member `empty()`: `return !_size`. -/
def hash_map.is_empty (m : hash_map K V) : Bool :=
  m.size == 0

/-- The statements `item->next = t[bucket]; t[bucket] = item` on a bucket array. -/
def push_front (t : List (List (K × V))) (bucket : Nat) (item : K × V) : List (List (K × V)) :=
  t.set bucket (item :: t.getD bucket [])

/-- The inner `while(item != nullptr)` loop of `rehash`: every node of one old chain, head to
tail, is pushed onto the head of its bucket in the new table. -/
def rehash_chain (hasher : K → Nat) (new_capacity : Nat) :
    List (K × V) → List (List (K × V)) → List (List (K × V))
  | [], new_table => new_table
  | item :: next, new_table =>
    rehash_chain hasher new_capacity next
      (push_front new_table (to_uint (hasher item.1) % new_capacity) item)

/-- The member `rehash()`. -/
def hash_map.rehash (hasher : K → Nat) (m : hash_map K V) : hash_map K V :=
  let new_capacity := if 2 * m.size < 10 then 10 else 2 * m.size
  let new_table : List (List (K × V)) := List.replicate new_capacity []
  let new_table := (List.range m.capacity).foldl
    (fun nt i => rehash_chain hasher new_capacity (m.table.getD i []) nt) new_table
  { table := new_table, capacity := new_capacity, size := m.size }

/-- The condition `_size >= _capacity` under which `insert` calls `rehash()`. -/
def hash_map.rehash_needed (m : hash_map K V) : Bool :=
  decide (m.size ≥ m.capacity)

/-- The member `insert(key, value)` (both overloads have the same effect on the state).
`FRG_ASSERT(_capacity > 0)` cannot fail: see `insert_assert`. -/
def hash_map.insert (hasher : K → Nat) (m : hash_map K V) (key : K) (value : V) :
    hash_map K V :=
  let m1 := if m.size ≥ m.capacity then m.rehash hasher else m
  let bucket := to_uint (hasher key) % m1.capacity
  { table := push_front m1.table bucket (key, value), capacity := m1.capacity,
    size := m1.size + 1 }

/-- The `for` loop of `get`: the value of the first node of the chain whose key compares
equal to `key`. -/
def get_chain {KC : Type} (key_eq : K → KC → Bool) (key : KC) : List (K × V) → Option V
  | [] => none
  | item :: next => if key_eq item.1 key then some item.2 else get_chain key_eq key next

/-- The member template `get<KeyCompatible>(key)`; `hasherC` is the hasher's overload for
`KeyCompatible` and `key_eq` is `operator==` between `Key` and `KeyCompatible`.
The result is the value pointed to, `none` for `nullptr`. -/
def hash_map.get {KC : Type} (hasherC : KC → Nat) (key_eq : K → KC → Bool)
    (m : hash_map K V) (key : KC) : Option V :=
  if m.size = 0 then none
  else get_chain key_eq key (m.table.getD (to_uint (hasherC key) % m.capacity) [])

/-- The instance `get<Key>` of `get`, with the equality of `Key`. -/
def hash_map.get_Key (hasher : K → Nat) (m : hash_map K V) (key : K) : Option V :=
  m.get hasher (fun a b => decide (a = b)) key

/-- The `for` loop of `remove` on one chain: `none` if no node matches, otherwise the
value of the first matching node and the chain with that node unlinked. -/
def remove_chain (key : K) : List (K × V) → Option (V × List (K × V))
  | [] => none
  | item :: next =>
    if item.1 = key then some (item.2, next)
    else
      match remove_chain key next with
      | none => none
      | some (value, rest) => some (value, item :: rest)

/-- The member `remove(key)`: the returned `optional<Value>` and the state afterwards. -/
def hash_map.remove (hasher : K → Nat) (m : hash_map K V) (key : K) :
    Option V × hash_map K V :=
  if m.size = 0 then (none, m)
  else
    let bucket := to_uint (hasher key) % m.capacity
    match remove_chain key (m.table.getD bucket []) with
    | none => (none, m)
    | some (value, chain) =>
      (some value, { table := m.table.set bucket chain, capacity := m.capacity,
                     size := m.size - 1 })

/-- The `while(bucket < map._capacity)` loop of `operator++`, with
`fuel = _capacity - bucket` iterations left. -/
def advance_scan (t : List (List (K × V))) : Nat → List (K × V) → Nat → iterator K V
  | 0, item, bucket => { item := item, bucket := bucket }
  | fuel + 1, _, bucket =>
    if (t.getD bucket []).isEmpty then advance_scan t fuel (t.getD bucket []) (bucket + 1)
    else { item := t.getD bucket [], bucket := bucket + 1 }

/-- The member `iterator::operator++`; `none` when `FRG_ASSERT(item)` fails. -/
def iterator.incr (m : hash_map K V) (it : iterator K V) : Option (iterator K V) :=
  match it.item with
  | [] => none
  | _ :: next =>
    if next.isEmpty then some (advance_scan m.table (m.capacity - it.bucket) next it.bucket)
    else some { item := next, bucket := it.bucket }

/-- The member `iterator::operator bool`. -/
def iterator.valid (it : iterator K V) : Bool :=
  !it.item.isEmpty

/-- The client loop `for(; it; ++it) yield *it`, run for at most `fuel` entries: the
entries produced, or `none` when the fuel runs out or an assertion fails. -/
def iterate_from (m : hash_map K V) : Nat → iterator K V → Option (List (K × V))
  | 0, it => if it.item.isEmpty then some [] else none
  | fuel + 1, it =>
    match it.item with
    | [] => some []
    | entry :: _ =>
      match it.incr m with
      | none => none
      | some it1 => (iterate_from m fuel it1).map (fun rest => entry :: rest)

/-- Inserting a list of pairs in order. -/
def hash_map.insert_all (hasher : K → Nat) (m : hash_map K V) (l : List (K × V)) :
    hash_map K V :=
  l.foldl (fun acc kv => acc.insert hasher kv.1 kv.2) m

/-- The live entries: all nodes of all chains, bucket by bucket. -/
def hash_map.entries (m : hash_map K V) : List (K × V) :=
  m.table.flatten

/-- States reachable from a freshly constructed map by `insert` and `remove`. -/
inductive Reachable (hasher : K → Nat) : hash_map K V → Prop
  | empty : Reachable hasher hash_map.empty
  | insert (m : hash_map K V) (key : K) (value : V) :
      Reachable hasher m → Reachable hasher (m.insert hasher key value)
  | remove (m : hash_map K V) (key : K) :
      Reachable hasher m → Reachable hasher (m.remove hasher key).2

/-! ## Auxiliary definitions for the proofs -/

/-- Every node of bucket `b` of the array `t` hashes to `b` modulo `cap`. -/
def Placed (hasher : K → Nat) (cap : Nat) (t : List (List (K × V))) : Prop :=
  ∀ b, ∀ e ∈ t.getD b [], to_uint (hasher e.1) % cap = b

/-- The representation invariant: the bucket array has `_capacity` slots, `_size` counts
the nodes, every node sits in the bucket of its hash, and the load is at most one. -/
structure Inv (hasher : K → Nat) (m : hash_map K V) : Prop where
  length_eq : m.table.length = m.capacity
  size_eq : m.size = m.entries.length
  placed : Placed hasher m.capacity m.table
  load : m.size ≤ m.capacity

/-- The state on which `insert` pushes the new node: after the conditional `rehash()`. -/
def hash_map.grown (hasher : K → Nat) (m : hash_map K V) : hash_map K V :=
  if m.size ≥ m.capacity then m.rehash hasher else m

/-- The bucket index `((unsigned int)_hasher(key)) % _capacity`. -/
def hash_map.bucket_of (hasher : K → Nat) (m : hash_map K V) (key : K) : Nat :=
  to_uint (hasher key) % m.capacity

/-- What a pass continued from the cursor `it` is expected to produce when `it.bucket` is
the next bucket to scan: the rest of the current chain, then all buckets from `it.bucket`. -/
def remaining (t : List (List (K × V))) (it : iterator K V) : List (K × V) :=
  it.item ++ (t.drop it.bucket).flatten

/-- The cursor after `n` applications of `operator++`; `none` when an assertion fails. -/
def incr_n (m : hash_map K V) : Nat → iterator K V → Option (iterator K V)
  | 0, it => some it
  | n + 1, it =>
    match it.incr m with
    | none => none
    | some it1 => incr_n m n it1

/-- Eleven key/value pairs with distinct keys, used as a concrete insert sequence. -/
def growth_inputs : List (Nat × Nat) :=
  [(0, 0), (1, 1), (2, 2), (3, 3), (4, 4), (5, 5), (6, 6), (7, 7), (8, 8), (9, 9), (10, 10)]

/-- A concrete reachable state: bucket `3` holds the chain `23, 3, 13`, bucket `7` holds
`7`, all other buckets of the ten are empty. -/
def sample_map : hash_map Nat Nat :=
  (hash_map.empty : hash_map Nat Nat).insert_all (fun x => x) [(13, 1), (3, 2), (23, 3), (7, 4)]

/-- A concrete reachable state with `size = capacity = 10`, so that the next insert
rehashes; bucket `0` holds the chain `(10, 3), (0, 2), (0, 1)`. -/
def full_map : hash_map Nat Nat :=
  (hash_map.empty : hash_map Nat Nat).insert_all (fun x => x)
    [(0, 1), (0, 2), (10, 3), (1, 0), (2, 0), (3, 0), (4, 0), (5, 0), (6, 0), (7, 0)]

end ops

/-! ## Bucket arrays -/

section lemmas

variable {K V : Type} [DecidableEq K]

theorem push_front_length (t : List (List (K × V))) (b : Nat) (e : K × V) :
    (push_front t b e).length = t.length := by
  simp [push_front]

theorem push_front_getD_self (t : List (List (K × V))) (b : Nat) (e : K × V)
    (hb : b < t.length) : (push_front t b e).getD b [] = e :: t.getD b [] := by
  simp [push_front, List.getD_eq_getElem?_getD, List.getElem?_set, hb]

theorem push_front_getD_other (t : List (List (K × V))) (b c : Nat) (e : K × V)
    (hbc : b ≠ c) : (push_front t b e).getD c [] = t.getD c [] := by
  simp [push_front, List.getD_eq_getElem?_getD, List.getElem?_set, hbc]

theorem set_flatten_perm (t : List (List (K × V))) (b : Nat) (e : K × V)
    (hb : b < t.length) : (push_front t b e).flatten.Perm (e :: t.flatten) := by
  induction t generalizing b with
  | nil => simp at hb
  | cons c t ih =>
    cases b with
    | zero => simp [push_front]
    | succ b =>
      have hb1 : b < t.length := by simpa using hb
      have h := ih b hb1
      simp only [push_front, List.set_cons_succ, List.flatten_cons, List.getD_cons_succ] at h ⊢
      exact (List.Perm.append_left c h).trans List.perm_middle

theorem erase_flatten_perm (t : List (List (K × V))) (b : Nat) (x : K × V)
    (c : List (K × V)) (hc : (t.getD b []).Perm (x :: c)) :
    t.flatten.Perm (x :: (t.set b c).flatten) := by
  induction t generalizing b with
  | nil => simp at hc
  | cons d t ih =>
    cases b with
    | zero =>
      simp only [List.getD_cons_zero] at hc
      simpa using List.Perm.append_right t.flatten hc
    | succ b =>
      simp only [List.getD_cons_succ] at hc
      have h := ih b hc
      simp only [List.set_cons_succ, List.flatten_cons]
      exact (List.Perm.append_left d h).trans List.perm_middle

theorem map_getD_range (t : List (List (K × V))) :
    (List.range t.length).map (fun i => t.getD i []) = t := by
  apply List.ext_getElem
  · simp
  · intro n h1 h2
    simp [List.getD_eq_getElem?_getD, List.getElem?_eq_getElem h2]

/-! ## The invariant of reachable states -/

theorem push_front_placed (hasher : K → Nat) (cap : Nat) (t : List (List (K × V)))
    (e : K × V) (hlen : t.length = cap) (hpos : 0 < cap) (hp : Placed hasher cap t) :
    Placed hasher cap (push_front t (to_uint (hasher e.1) % cap) e) := by
  intro b x hx
  by_cases hb : to_uint (hasher e.1) % cap = b
  · subst hb
    rw [push_front_getD_self _ _ _ (by rw [hlen]; exact Nat.mod_lt _ hpos)] at hx
    rcases List.mem_cons.mp hx with h | h
    · rw [h]
    · exact hp _ x h
  · rw [push_front_getD_other _ _ _ _ hb] at hx
    exact hp b x hx

theorem rehash_chain_spec (hasher : K → Nat) (nc : Nat) (hpos : 0 < nc)
    (chain : List (K × V)) (nt : List (List (K × V))) (hlen : nt.length = nc)
    (hp : Placed hasher nc nt) :
    (rehash_chain hasher nc chain nt).length = nc ∧
    (rehash_chain hasher nc chain nt).flatten.Perm (chain ++ nt.flatten) ∧
    Placed hasher nc (rehash_chain hasher nc chain nt) := by
  induction chain generalizing nt with
  | nil => exact ⟨hlen, List.Perm.refl _, hp⟩
  | cons e rest ih =>
    have hb : to_uint (hasher e.1) % nc < nt.length := by rw [hlen]; exact Nat.mod_lt _ hpos
    have hlen1 : (push_front nt (to_uint (hasher e.1) % nc) e).length = nc := by
      rw [push_front_length]; exact hlen
    obtain ⟨h1, h2, h3⟩ := ih _ hlen1 (push_front_placed hasher nc nt e hlen hpos hp)
    refine ⟨h1, ?_, h3⟩
    simp only [rehash_chain]
    refine h2.trans ?_
    refine (List.Perm.append_left rest (set_flatten_perm nt _ e hb)).trans ?_
    simp

theorem rehash_fold_spec (hasher : K → Nat) (nc : Nat) (hpos : 0 < nc)
    (t : List (List (K × V))) (is : List Nat) (nt : List (List (K × V)))
    (hlen : nt.length = nc) (hp : Placed hasher nc nt) :
    (is.foldl (fun nt i => rehash_chain hasher nc (t.getD i []) nt) nt).length = nc ∧
    (is.foldl (fun nt i => rehash_chain hasher nc (t.getD i []) nt) nt).flatten.Perm
      ((is.map (fun i => t.getD i [])).flatten ++ nt.flatten) ∧
    Placed hasher nc (is.foldl (fun nt i => rehash_chain hasher nc (t.getD i []) nt) nt) := by
  induction is generalizing nt with
  | nil => exact ⟨hlen, by simp, hp⟩
  | cons i is ih =>
    obtain ⟨a1, a2, a3⟩ := rehash_chain_spec hasher nc hpos (t.getD i []) nt hlen hp
    obtain ⟨h1, h2, h3⟩ := ih _ a1 a3
    refine ⟨h1, ?_, h3⟩
    simp only [List.foldl_cons, List.map_cons, List.flatten_cons]
    refine h2.trans ?_
    refine (List.Perm.append_left _ a2).trans ?_
    rw [← List.append_assoc]
    exact List.Perm.append_right _ List.perm_append_comm

theorem replicate_placed (hasher : K → Nat) (nc : Nat) :
    Placed hasher nc (List.replicate nc ([] : List (K × V))) := by
  intro b e he
  have h : (List.replicate nc ([] : List (K × V))).getD b [] = [] := by
    simp only [List.getD_eq_getElem?_getD, List.getElem?_replicate]
    split <;> rfl
  rw [h] at he
  cases he

theorem replicate_flatten (nc : Nat) :
    (List.replicate nc ([] : List (K × V))).flatten = [] := by
  induction nc with
  | zero => rfl
  | succ n ih => simp [List.replicate_succ]

theorem rehash_capacity (hasher : K → Nat) (m : hash_map K V) :
    (m.rehash hasher).capacity = if 2 * m.size < 10 then 10 else 2 * m.size := rfl

theorem rehash_size (hasher : K → Nat) (m : hash_map K V) :
    (m.rehash hasher).size = m.size := rfl

theorem rehash_spec (hasher : K → Nat) (m : hash_map K V)
    (hlen : m.table.length = m.capacity) :
    (m.rehash hasher).table.length = (m.rehash hasher).capacity ∧
    (m.rehash hasher).entries.Perm m.entries ∧
    Placed hasher (m.rehash hasher).capacity (m.rehash hasher).table := by
  have hpos : 0 < (if 2 * m.size < 10 then 10 else 2 * m.size) := by split <;> omega
  obtain ⟨h1, h2, h3⟩ := rehash_fold_spec hasher _ hpos m.table (List.range m.capacity)
    (List.replicate (if 2 * m.size < 10 then 10 else 2 * m.size) [])
    (List.length_replicate _ _) (replicate_placed hasher _)
  have hmap : (List.range m.capacity).map (fun i => m.table.getD i []) = m.table := by
    rw [← hlen]; exact map_getD_range _
  rw [hmap, replicate_flatten, List.append_nil] at h2
  exact ⟨h1, h2, h3⟩

theorem rehash_inv (hasher : K → Nat) (m : hash_map K V) (h : Inv hasher m) :
    Inv hasher (m.rehash hasher) ∧ (m.rehash hasher).size < (m.rehash hasher).capacity := by
  obtain ⟨h1, h2, h3⟩ := rehash_spec hasher m h.length_eq
  refine ⟨⟨h1, ?_, h3, ?_⟩, ?_⟩
  · rw [rehash_size, h2.length_eq]; exact h.size_eq
  · rw [rehash_size, rehash_capacity]; split <;> omega
  · rw [rehash_size, rehash_capacity]; split <;> omega

theorem insert_eq (hasher : K → Nat) (m : hash_map K V) (key : K) (value : V) :
    m.insert hasher key value =
      { table := push_front (m.grown hasher).table
          (to_uint (hasher key) % (m.grown hasher).capacity) (key, value),
        capacity := (m.grown hasher).capacity, size := (m.grown hasher).size + 1 } := rfl

theorem grown_inv (hasher : K → Nat) (m : hash_map K V) (h : Inv hasher m) :
    Inv hasher (m.grown hasher) ∧ (m.grown hasher).size < (m.grown hasher).capacity ∧
    (m.grown hasher).entries.Perm m.entries := by
  unfold hash_map.grown
  split
  · exact ⟨(rehash_inv hasher m h).1, (rehash_inv hasher m h).2,
      (rehash_spec hasher m h.length_eq).2.1⟩
  · exact ⟨h, by omega, List.Perm.refl _⟩

/-- The assertion `FRG_ASSERT(_capacity > 0)` of `insert` holds in every state. -/
theorem insert_assert (hasher : K → Nat) (m : hash_map K V) :
    0 < (m.grown hasher).capacity := by
  unfold hash_map.grown
  split
  · rw [rehash_capacity]; split <;> omega
  · omega

theorem insert_entries (hasher : K → Nat) (m : hash_map K V) (key : K) (value : V)
    (h : Inv hasher m) : (m.insert hasher key value).entries.Perm ((key, value) :: m.entries) := by
  obtain ⟨g1, _, g3⟩ := grown_inv hasher m h
  have hb : to_uint (hasher key) % (m.grown hasher).capacity < (m.grown hasher).table.length := by
    rw [g1.length_eq]; exact Nat.mod_lt _ (insert_assert hasher m)
  rw [insert_eq]
  exact (set_flatten_perm _ _ _ hb).trans (List.Perm.cons _ g3)

theorem insert_inv (hasher : K → Nat) (m : hash_map K V) (key : K) (value : V)
    (h : Inv hasher m) : Inv hasher (m.insert hasher key value) := by
  obtain ⟨g1, g2, g3⟩ := grown_inv hasher m h
  have hpos := insert_assert hasher m
  refine ⟨?_, ?_, ?_, ?_⟩
  · rw [insert_eq]; simp only [push_front_length]; exact g1.length_eq
  · rw [(insert_entries hasher m key value h).length_eq, insert_eq]
    simp only [List.length_cons]
    rw [g1.size_eq, g3.length_eq]
  · rw [insert_eq]
    exact push_front_placed hasher _ _ (key, value) g1.length_eq hpos g1.placed
  · rw [insert_eq]; simp only; omega

/-! ## Chains -/

theorem remove_chain_none (key : K) (chain : List (K × V)) :
    remove_chain key chain = none ↔ ∀ e ∈ chain, e.1 ≠ key := by
  induction chain with
  | nil => simp [remove_chain]
  | cons e rest ih =>
    simp only [remove_chain, List.mem_cons, forall_eq_or_imp]
    by_cases he : e.1 = key
    · simp [he]
    · simp only [he, if_false, not_false_eq_true, true_and]
      rw [← ih]
      cases remove_chain key rest with
      | none => simp [he]
      | some p => simp [he]

theorem remove_chain_some (key : K) (chain : List (K × V)) (v : V) (rest : List (K × V))
    (h : remove_chain key chain = some (v, rest)) :
    ∃ pre post, chain = pre ++ (key, v) :: post ∧ rest = pre ++ post ∧
      ∀ e ∈ pre, e.1 ≠ key := by
  induction chain generalizing rest with
  | nil => simp [remove_chain] at h
  | cons e tl ih =>
    simp only [remove_chain] at h
    by_cases he : e.1 = key
    · simp only [he, if_true, Option.some.injEq, Prod.mk.injEq] at h
      refine ⟨[], tl, ?_, ?_, ?_⟩
      · obtain ⟨a, b⟩ := e
        simp only at he h
        simp [← he, ← h.1]
      · simp [h.2]
      · simp
    · simp only [he, if_false] at h
      cases hr : remove_chain key tl with
      | none => rw [hr] at h; simp at h
      | some p =>
        obtain ⟨v1, r1⟩ := p
        rw [hr] at h
        simp only [Option.some.injEq, Prod.mk.injEq] at h
        obtain ⟨pre, post, h1, h2, h3⟩ := ih r1 (by rw [hr, h.1])
        refine ⟨e :: pre, post, ?_, ?_, ?_⟩
        · simp [h1]
        · simp [← h.2, h2]
        · intro x hx
          rcases List.mem_cons.mp hx with hx | hx
          · rw [hx]; exact he
          · exact h3 x hx

theorem remove_chain_append (key : K) (pre post : List (K × V)) (v : V)
    (hpre : ∀ e ∈ pre, e.1 ≠ key) :
    remove_chain key (pre ++ (key, v) :: post) = some (v, pre ++ post) := by
  induction pre with
  | nil => simp [remove_chain]
  | cons e tl ih =>
    have he : e.1 ≠ key := hpre e (List.mem_cons_self _ _)
    have ht := ih (fun x hx => hpre x (List.mem_cons_of_mem _ hx))
    simp [remove_chain, he, ht]

theorem get_chain_append {KC : Type} (key_eq : K → KC → Bool) (key : KC)
    (pre post : List (K × V)) (x : K × V)
    (hpre : ∀ e ∈ pre, key_eq e.1 key = false) (hx : key_eq x.1 key = true) :
    get_chain key_eq key (pre ++ x :: post) = some x.2 := by
  induction pre with
  | nil => simp [get_chain, hx]
  | cons e tl ih =>
    have he := hpre e (List.mem_cons_self _ _)
    have ht := ih (fun y hy => hpre y (List.mem_cons_of_mem _ hy))
    simp [get_chain, he, ht]

theorem get_chain_none {KC : Type} (key_eq : K → KC → Bool) (key : KC)
    (chain : List (K × V)) (h : ∀ e ∈ chain, key_eq e.1 key = false) :
    get_chain key_eq key chain = none := by
  induction chain with
  | nil => rfl
  | cons e tl ih =>
    have he := h e (List.mem_cons_self _ _)
    have ht := ih (fun y hy => h y (List.mem_cons_of_mem _ hy))
    simp [get_chain, he, ht]

theorem get_chain_mem {KC : Type} (key_eq : K → KC → Bool) (key : KC)
    (chain : List (K × V)) (v : V) (h : get_chain key_eq key chain = some v) :
    ∃ e ∈ chain, key_eq e.1 key = true ∧ e.2 = v := by
  induction chain with
  | nil => simp [get_chain] at h
  | cons e tl ih =>
    simp only [get_chain] at h
    by_cases he : key_eq e.1 key = true
    · simp only [he, if_true, Option.some.injEq] at h
      exact ⟨e, List.mem_cons_self _ _, he, h⟩
    · simp only [he] at h
      obtain ⟨x, hx, hx2⟩ := ih h
      exact ⟨x, List.mem_cons_of_mem _ hx, hx2⟩

theorem getD_set_self (t : List (List (K × V))) (b : Nat) (c : List (K × V))
    (hb : b < t.length) : (t.set b c).getD b [] = c := by
  simp [List.getD_eq_getElem?_getD, List.getElem?_set, hb]

theorem getD_set_other (t : List (List (K × V))) (b b1 : Nat) (c : List (K × V))
    (hb : b ≠ b1) : (t.set b c).getD b1 [] = t.getD b1 [] := by
  simp [List.getD_eq_getElem?_getD, List.getElem?_set, hb]

theorem getD_ne_nil_lt (t : List (List (K × V))) (b : Nat) (h : t.getD b [] ≠ []) :
    b < t.length := by
  by_contra hb
  apply h
  simp [List.getD_eq_getElem?_getD, List.getElem?_eq_none (not_lt.mp hb)]

theorem mem_entries (m : hash_map K V) (e : K × V) :
    e ∈ m.entries ↔ ∃ b, e ∈ m.table.getD b [] := by
  unfold hash_map.entries
  rw [List.mem_flatten]
  constructor
  · rintro ⟨c, hc, he⟩
    obtain ⟨n, hn, rfl⟩ := List.getElem_of_mem hc
    exact ⟨n, by simpa [List.getD_eq_getElem?_getD, List.getElem?_eq_getElem hn] using he⟩
  · rintro ⟨b, hb⟩
    have hlt : b < m.table.length := getD_ne_nil_lt _ _ (List.ne_nil_of_mem hb)
    refine ⟨m.table[b], List.getElem_mem _, ?_⟩
    simpa [List.getD_eq_getElem?_getD, List.getElem?_eq_getElem hlt] using hb

/-! ## `remove` and the invariant -/

theorem remove_cases (hasher : K → Nat) (m : hash_map K V) (key : K) :
    m.remove hasher key = (none, m) ∨
    ∃ v pre post, 0 < m.size ∧
      m.table.getD (m.bucket_of hasher key) [] = pre ++ (key, v) :: post ∧
      (∀ e ∈ pre, e.1 ≠ key) ∧
      m.remove hasher key =
        (some v, { table := m.table.set (m.bucket_of hasher key) (pre ++ post),
                   capacity := m.capacity, size := m.size - 1 }) := by
  unfold hash_map.remove hash_map.bucket_of
  by_cases hs : m.size = 0
  · left; simp [hs]
  · simp only [hs, if_false]
    cases hr : remove_chain key (m.table.getD (to_uint (hasher key) % m.capacity) []) with
    | none => left; rfl
    | some p =>
      obtain ⟨v, rest⟩ := p
      obtain ⟨pre, post, h1, h2, h3⟩ := remove_chain_some key _ v rest hr
      right
      exact ⟨v, pre, post, Nat.pos_of_ne_zero hs, h1, h3, by simp [h2]⟩

theorem remove_inv (hasher : K → Nat) (m : hash_map K V) (key : K) (h : Inv hasher m) :
    Inv hasher (m.remove hasher key).2 := by
  rcases remove_cases hasher m key with hn | ⟨v, pre, post, hs, hc, _, hr⟩
  · rw [hn]; exact h
  · rw [hr]
    have hb : m.bucket_of hasher key < m.table.length :=
      getD_ne_nil_lt _ _ (by rw [hc]; simp)
    have hperm : m.table.flatten.Perm
        ((key, v) :: (m.table.set (m.bucket_of hasher key) (pre ++ post)).flatten) :=
      erase_flatten_perm m.table _ (key, v) (pre ++ post) (by rw [hc]; exact List.perm_middle)
    refine ⟨?_, ?_, ?_, ?_⟩
    · simp only [List.length_set]; exact h.length_eq
    · have h1 := h.size_eq
      have h2 := hperm.length_eq
      simp only [hash_map.entries, List.length_cons] at h1 h2 ⊢
      omega
    · intro b e he
      simp only at he ⊢
      by_cases hbb : m.bucket_of hasher key = b
      · subst hbb
        rw [getD_set_self _ _ _ hb] at he
        apply h.placed
        rw [hc]
        rcases List.mem_append.mp he with h1 | h1
        · exact List.mem_append_left _ h1
        · exact List.mem_append_right _ (List.mem_cons_of_mem _ h1)
      · rw [getD_set_other _ _ _ _ hbb] at he
        exact h.placed b e he
    · have := h.load
      simp only
      omega

theorem empty_inv (hasher : K → Nat) : Inv hasher (hash_map.empty : hash_map K V) :=
  ⟨rfl, rfl, fun b e he => by simp [hash_map.empty] at he, Nat.le_refl _⟩

theorem reachable_inv (hasher : K → Nat) (m : hash_map K V) (h : Reachable hasher m) :
    Inv hasher m := by
  induction h with
  | empty => exact empty_inv hasher
  | insert m key value _ ih => exact insert_inv hasher m key value ih
  | remove m key _ ih => exact remove_inv hasher m key ih

theorem insert_all_reachable (hasher : K → Nat) (m : hash_map K V) (l : List (K × V))
    (h : Reachable hasher m) : Reachable hasher (m.insert_all hasher l) := by
  induction l generalizing m with
  | nil => exact h
  | cons kv l ih => exact ih _ (Reachable.insert m kv.1 kv.2 h)

theorem insert_all_entries (hasher : K → Nat) (m : hash_map K V) (l : List (K × V))
    (h : Inv hasher m) : (m.insert_all hasher l).entries.Perm (l.reverse ++ m.entries) := by
  induction l generalizing m with
  | nil => exact List.Perm.refl _
  | cons kv l ih =>
    refine (ih _ (insert_inv hasher m kv.1 kv.2 h)).trans ?_
    refine (List.Perm.append_left _ (insert_entries hasher m kv.1 kv.2 h)).trans ?_
    simp

/-- In a state satisfying the invariant, every live entry sits in the bucket of its key. -/
theorem mem_bucket_of_mem_entries (hasher : K → Nat) (m : hash_map K V) (h : Inv hasher m)
    (e : K × V) (he : e ∈ m.entries) :
    e ∈ m.table.getD (m.bucket_of hasher e.1) [] := by
  obtain ⟨b, hb⟩ := (mem_entries m e).mp he
  have := h.placed b e hb
  unfold hash_map.bucket_of
  rw [this]
  exact hb

/-! ## `insert` followed by `get` or `remove` -/

theorem insert_bucket_lt (hasher : K → Nat) (m : hash_map K V) (key : K) (h : Inv hasher m) :
    to_uint (hasher key) % (m.grown hasher).capacity < (m.grown hasher).table.length := by
  rw [(grown_inv hasher m h).1.length_eq]
  exact Nat.mod_lt _ (insert_assert hasher m)

theorem insert_get (hasher : K → Nat) (m : hash_map K V) (key : K) (value : V)
    (h : Inv hasher m) : (m.insert hasher key value).get_Key hasher key = some value := by
  have hb := insert_bucket_lt hasher m key h
  rw [insert_eq]
  unfold hash_map.get_Key hash_map.get
  simp only [Nat.add_one_ne_zero, if_false]
  rw [push_front_getD_self _ _ _ hb]
  simp [get_chain]

theorem set_set_getD (t : List (List (K × V))) (b : Nat) (c : List (K × V)) :
    (t.set b c).set b (t.getD b []) = t := by
  rw [List.set_set]
  apply List.ext_getElem
  · simp
  · intro n h1 h2
    rw [List.getElem_set]
    split
    · next hbn => subst hbn; simp [List.getD_eq_getElem?_getD, List.getElem?_eq_getElem h2]
    · rfl

theorem grown_eq_self (hasher : K → Nat) (m : hash_map K V) (h : m.size < m.capacity) :
    m.grown hasher = m := by
  unfold hash_map.grown
  rw [if_neg (by omega)]

theorem insert_remove (hasher : K → Nat) (m : hash_map K V) (key : K) (value : V)
    (h : Inv hasher m) (hs : m.size < m.capacity) :
    (m.insert hasher key value).remove hasher key = (some value, m) := by
  have hb := insert_bucket_lt hasher m key h
  rw [insert_eq]
  rw [grown_eq_self hasher m hs] at hb ⊢
  unfold hash_map.remove
  simp only [Nat.add_one_ne_zero, if_false]
  rw [push_front_getD_self _ _ _ hb]
  simp only [remove_chain, if_true, push_front, Nat.add_sub_cancel]
  rw [set_set_getD]

theorem get_chain_congr {KC KD : Type} (f : K → KC → Bool) (g : K → KD → Bool) (kc : KC)
    (kd : KD) (chain : List (K × V)) (h : ∀ e ∈ chain, f e.1 kc = g e.1 kd) :
    get_chain f kc chain = get_chain g kd chain := by
  induction chain with
  | nil => rfl
  | cons e tl ih =>
    have he := h e (List.mem_cons_self _ _)
    have ht := ih (fun y hy => h y (List.mem_cons_of_mem _ hy))
    simp [get_chain, he, ht]

theorem get_chain_some_of_mem {KC : Type} (key_eq : K → KC → Bool) (key : KC)
    (chain : List (K × V)) (e : K × V) (he : e ∈ chain) (hk : key_eq e.1 key = true) :
    ∃ v, get_chain key_eq key chain = some v := by
  cases hg : get_chain key_eq key chain with
  | some v => exact ⟨v, rfl⟩
  | none =>
    exfalso
    induction chain with
    | nil => cases he
    | cons x tl ih =>
      simp only [get_chain] at hg
      by_cases hx : key_eq x.1 key = true
      · simp [hx] at hg
      · simp only [hx] at hg
        rcases List.mem_cons.mp he with h1 | h1
        · rw [h1] at hk; exact hx hk
        · exact ih h1 hg

theorem nodup_keys_unique (l : List (K × V)) (hd : (l.map Prod.fst).Nodup) (k : K) (v w : V)
    (hv : (k, v) ∈ l) (hw : (k, w) ∈ l) : v = w := by
  induction l with
  | nil => cases hv
  | cons x tl ih =>
    rw [List.map_cons, List.nodup_cons] at hd
    rcases List.mem_cons.mp hv with h1 | h1 <;> rcases List.mem_cons.mp hw with h2 | h2
    · rw [← h1] at h2; exact (Prod.mk.inj h2).2.symm
    · exfalso; apply hd.1; rw [← h1]
      have h3 := List.mem_map_of_mem Prod.fst h2
      exact h3
    · exfalso; apply hd.1; rw [← h2]
      have h3 := List.mem_map_of_mem Prod.fst h1
      exact h3
    · exact ih hd.2 h1 h2

/-- With the invariant, `get` of a key with a live entry returns the value of a live
entry with that key. -/
theorem get_of_mem_entries (hasher : K → Nat) (m : hash_map K V) (h : Inv hasher m)
    (k : K) (v : V) (he : (k, v) ∈ m.entries) :
    ∃ w, m.get_Key hasher k = some w ∧ (k, w) ∈ m.entries := by
  have hb := mem_bucket_of_mem_entries hasher m h (k, v) he
  have hs : m.size ≠ 0 := by
    rw [h.size_eq]; exact Nat.ne_of_gt (List.length_pos_of_mem he)
  obtain ⟨w, hw⟩ := get_chain_some_of_mem (fun a b => decide (a = b)) k _ (k, v) hb (by simp)
  refine ⟨w, ?_, ?_⟩
  · unfold hash_map.get_Key hash_map.get
    rw [if_neg hs]
    exact hw
  · obtain ⟨e, he1, he2, he3⟩ := get_chain_mem _ _ _ _ hw
    have hk : e.1 = k := by simpa using he2
    obtain ⟨a, b⟩ := e
    simp only at hk he3
    subst hk; subst he3
    exact (mem_entries m _).mpr ⟨_, he1⟩

/-! ## Growth -/

theorem insert_size (hasher : K → Nat) (m : hash_map K V) (key : K) (value : V) :
    (m.insert hasher key value).size = m.size + 1 := by
  rw [insert_eq]
  unfold hash_map.grown
  split <;> rfl

theorem insert_capacity (hasher : K → Nat) (m : hash_map K V) (key : K) (value : V) :
    (m.insert hasher key value).capacity =
      if m.size ≥ m.capacity then (if 2 * m.size < 10 then 10 else 2 * m.size)
      else m.capacity := by
  rw [insert_eq]
  unfold hash_map.grown
  split <;> rfl

theorem insert_all_append (hasher : K → Nat) (m : hash_map K V) (l : List (K × V))
    (kv : K × V) :
    m.insert_all hasher (l ++ [kv]) = (m.insert_all hasher l).insert hasher kv.1 kv.2 := by
  simp [hash_map.insert_all, List.foldl_append]

theorem growth_schedule (hasher : K → Nat) (l : List (K × V)) (hl : l.length ≤ 11) :
    ((hash_map.empty : hash_map K V).insert_all hasher l).size = l.length ∧
    ((hash_map.empty : hash_map K V).insert_all hasher l).capacity =
      if l.length = 0 then 0 else if l.length ≤ 10 then 10 else 20 := by
  induction l using List.reverseRecOn with
  | nil => exact ⟨rfl, rfl⟩
  | append_singleton l kv ih =>
    rw [List.length_append, List.length_singleton] at hl ⊢
    obtain ⟨h1, h2⟩ := ih (by omega)
    rw [insert_all_append, insert_size, insert_capacity, h1, h2]
    refine ⟨rfl, ?_⟩
    generalize l.length = n at hl
    have hn : n ≤ 10 := by omega
    interval_cases n <;> simp

/-! ## Iteration -/

theorem drop_eq_getD_cons (t : List (List (K × V))) (b : Nat) (hb : b < t.length) :
    t.drop b = t.getD b [] :: t.drop (b + 1) := by
  rw [List.drop_eq_getElem_cons hb]
  simp [List.getD_eq_getElem?_getD, List.getElem?_eq_getElem hb]

theorem advance_scan_spec (t : List (List (K × V))) (fuel bucket : Nat) (item : List (K × V))
    (hf : fuel = t.length - bucket) (hi : item = []) :
    remaining t (advance_scan t fuel item bucket) = (t.drop bucket).flatten ∧
    ((advance_scan t fuel item bucket).item = [] →
      t.length ≤ (advance_scan t fuel item bucket).bucket) := by
  induction fuel generalizing bucket item with
  | zero =>
    subst hi
    simp only [advance_scan, remaining, List.nil_append, true_and]
    intro _; omega
  | succ n ih =>
    have hb : bucket < t.length := by omega
    simp only [advance_scan]
    split
    · next he =>
      have he1 : t.getD bucket [] = [] := by simpa using he
      obtain ⟨h1, h2⟩ := ih (bucket + 1) (t.getD bucket []) (by omega) he1
      refine ⟨?_, h2⟩
      rw [h1, drop_eq_getD_cons t bucket hb, he1]
      rfl
    · next he =>
      have he1 : t.getD bucket [] ≠ [] := by simpa using he
      refine ⟨?_, fun h => absurd h he1⟩
      rw [drop_eq_getD_cons t bucket hb]
      rfl

theorem incr_spec (m : hash_map K V) (hlen : m.table.length = m.capacity)
    (it : iterator K V) (entry : K × V) (next : List (K × V)) (hit : it.item = entry :: next) :
    ∃ it1, it.incr m = some it1 ∧ remaining m.table it = entry :: remaining m.table it1 ∧
      (it1.item = [] → m.table.length ≤ it1.bucket) := by
  unfold iterator.incr
  rw [hit]
  simp only
  split
  · next he =>
    have he1 : next = [] := by simpa using he
    obtain ⟨h1, h2⟩ := advance_scan_spec m.table (m.capacity - it.bucket) it.bucket next
      (by rw [hlen]) he1
    refine ⟨_, rfl, ?_, h2⟩
    rw [h1]
    simp [remaining, hit, he1]
  · next he =>
    have he1 : next ≠ [] := by simpa using he
    exact ⟨_, rfl, by simp [remaining, hit], fun h => absurd h he1⟩

theorem iterate_from_spec (m : hash_map K V) (hlen : m.table.length = m.capacity)
    (fuel : Nat) (it : iterator K V) (hit : it.item = [] → m.table.length ≤ it.bucket)
    (hf : (remaining m.table it).length ≤ fuel) :
    iterate_from m fuel it = some (remaining m.table it) := by
  induction fuel generalizing it with
  | zero =>
    have h0 : remaining m.table it = [] := List.length_eq_zero.mp (Nat.le_zero.mp hf)
    have h1 : it.item = [] := (List.append_eq_nil.mp h0).1
    simp [iterate_from, h0, h1]
  | succ n ih =>
    cases hitem : it.item with
    | nil =>
      have h0 : remaining m.table it = [] := by
        simp [remaining, hitem, List.drop_eq_nil_of_le (hit hitem)]
      simp [iterate_from, hitem, h0]
    | cons entry next =>
      obtain ⟨it1, h1, h2, h3⟩ := incr_spec m hlen it entry next hitem
      have hf1 : (remaining m.table it1).length ≤ n := by
        rw [h2, List.length_cons] at hf; omega
      simp only [iterate_from, hitem, h1]
      rw [ih it1 h3 hf1, h2]
      rfl

theorem iterate_from_steps (m : hash_map K V) (fuel : Nat) (it : iterator K V)
    (out : List (K × V)) (h : iterate_from m fuel it = some out) :
    ∃ last, incr_n m out.length it = some last ∧ last.valid = false := by
  induction fuel generalizing it out with
  | zero =>
    simp only [iterate_from] at h
    split at h
    · next he =>
      simp only [Option.some.injEq] at h
      subst h
      exact ⟨it, rfl, by simp [iterator.valid, he]⟩
    · cases h
  | succ n ih =>
    cases hitem : it.item with
    | nil =>
      simp only [iterate_from, hitem, Option.some.injEq] at h
      subst h
      exact ⟨it, rfl, by simp [iterator.valid, hitem]⟩
    | cons entry tl =>
      simp only [iterate_from, hitem] at h
      cases hi : it.incr m with
      | none => simp [hi] at h
      | some it1 =>
        simp only [hi] at h
        cases hr : iterate_from m n it1 with
        | none => simp [hr] at h
        | some rest =>
          simp only [hr, Option.map_some', Option.some.injEq] at h
          subst h
          obtain ⟨last, h1, h2⟩ := ih it1 rest hr
          exact ⟨last, by simp [incr_n, hi, h1], h2⟩

/-- On a state whose bucket array has `capacity` slots, `operator++` applied repeatedly
to any cursor reaches a falsy cursor after finitely many steps, no assertion failing. -/
theorem incr_terminates (m : hash_map K V) (hlen : m.table.length = m.capacity)
    (it : iterator K V) :
    ∃ steps last, incr_n m steps it = some last ∧ last.valid = false := by
  cases hitem : it.item with
  | nil => exact ⟨0, it, rfl, by simp [iterator.valid, hitem]⟩
  | cons entry next =>
    have h := iterate_from_spec m hlen (remaining m.table it).length it
      (fun h0 => by rw [hitem] at h0; cases h0) (Nat.le_refl _)
    obtain ⟨last, h1, h2⟩ := iterate_from_steps m _ it _ h
    exact ⟨_, last, h1, h2⟩

/-- When `bucket` is the index of the bucket holding the current node rather than the
next index to scan, `operator++` at the end of the chain reads that same bucket again:
in the table with the single node `(5, 1)` in bucket `5`, from the cursor at that node
with `bucket = 5` it returns the cursor at that node with `bucket = 6`, and only the next
step is falsy. -/
theorem incr_rescans_own_bucket :
    iterator.incr ((hash_map.empty : hash_map Nat Nat).insert (fun x => x) 5 1)
      { item := [(5, 1)], bucket := 5 } = some { item := [(5, 1)], bucket := 6 } ∧
    iterator.incr ((hash_map.empty : hash_map Nat Nat).insert (fun x => x) 5 1)
      { item := [(5, 1)], bucket := 6 } = some { item := [], bucket := 10 } := by
  decide

/-! ## The order of nodes after `rehash` -/

theorem replicate_getD (nc b : Nat) :
    (List.replicate nc ([] : List (K × V))).getD b [] = [] := by
  simp only [List.getD_eq_getElem?_getD, List.getElem?_replicate]
  split <;> rfl

theorem rehash_chain_length (hasher : K → Nat) (nc : Nat) (chain : List (K × V))
    (nt : List (List (K × V))) : (rehash_chain hasher nc chain nt).length = nt.length := by
  induction chain generalizing nt with
  | nil => rfl
  | cons e rest ih =>
    simp only [rehash_chain]
    rw [ih, push_front_length]

theorem rehash_chain_getD (hasher : K → Nat) (nc : Nat) (hpos : 0 < nc)
    (chain : List (K × V)) (nt : List (List (K × V))) (hlen : nt.length = nc) (b : Nat) :
    (rehash_chain hasher nc chain nt).getD b [] =
      (chain.filter (fun e => decide (to_uint (hasher e.1) % nc = b))).reverse
        ++ nt.getD b [] := by
  induction chain generalizing nt with
  | nil => simp [rehash_chain]
  | cons e rest ih =>
    have hb : to_uint (hasher e.1) % nc < nt.length := by rw [hlen]; exact Nat.mod_lt _ hpos
    simp only [rehash_chain]
    rw [ih _ (by rw [push_front_length]; exact hlen)]
    by_cases h : to_uint (hasher e.1) % nc = b
    · rw [List.filter_cons_of_pos (by simpa using h)]
      rw [← h, push_front_getD_self _ _ _ hb]
      simp
    · rw [List.filter_cons_of_neg (by simpa using h)]
      rw [push_front_getD_other _ _ _ _ h]

theorem rehash_fold_getD (hasher : K → Nat) (nc : Nat) (hpos : 0 < nc)
    (t : List (List (K × V))) (is : List Nat) (nt : List (List (K × V)))
    (hlen : nt.length = nc) (b : Nat) :
    (is.foldl (fun nt i => rehash_chain hasher nc (t.getD i []) nt) nt).getD b [] =
      ((is.map (fun i => t.getD i [])).flatten.filter
        (fun e => decide (to_uint (hasher e.1) % nc = b))).reverse ++ nt.getD b [] := by
  induction is generalizing nt with
  | nil => simp
  | cons i is ih =>
    simp only [List.foldl_cons, List.map_cons, List.flatten_cons]
    rw [ih _ (by rw [rehash_chain_length]; exact hlen), rehash_chain_getD hasher nc hpos _ _ hlen]
    simp

/-- After `rehash`, bucket `b` holds the old nodes that hash to `b`, in the reverse of the
order in which the old table lists them (bucket by bucket, head to tail). -/
theorem rehash_getD (hasher : K → Nat) (m : hash_map K V) (hlen : m.table.length = m.capacity)
    (b : Nat) :
    (m.rehash hasher).table.getD b [] =
      (m.entries.filter
        (fun e => decide (to_uint (hasher e.1) % (m.rehash hasher).capacity = b))).reverse := by
  have hpos : 0 < (if 2 * m.size < 10 then 10 else 2 * m.size) := by split <;> omega
  have h := rehash_fold_getD hasher _ hpos m.table (List.range m.capacity)
    (List.replicate (if 2 * m.size < 10 then 10 else 2 * m.size) [])
    (List.length_replicate _ _) b
  have hmap : (List.range m.capacity).map (fun i => m.table.getD i []) = m.table := by
    rw [← hlen]; exact map_getD_range _
  rw [hmap, replicate_getD, List.append_nil] at h
  exact h

theorem flatten_split (t : List (List (K × V))) (b : Nat) (hb : b < t.length) :
    t.flatten = (t.take b).flatten ++ t.getD b [] ++ (t.drop (b + 1)).flatten := by
  conv_lhs => rw [← List.take_append_drop b t]
  rw [List.flatten_append, drop_eq_getD_cons t b hb, List.flatten_cons, List.append_assoc]

theorem filter_flatten_none (t : List (List (K × V))) (p : K × V → Bool)
    (h : ∀ j, ∀ e ∈ t.getD j [], p e = false) : t.flatten.filter p = [] := by
  induction t with
  | nil => rfl
  | cons c t ih =>
    rw [List.flatten_cons, List.filter_append, ih (fun j e he => h (j + 1) e he)]
    rw [List.append_nil, List.filter_eq_nil_iff]
    intro e he
    simp [h 0 e he]

theorem filter_flatten_bucket (t : List (List (K × V))) (p : K × V → Bool) (b : Nat)
    (h : ∀ j, j ≠ b → ∀ e ∈ t.getD j [], p e = false) :
    t.flatten.filter p = (t.getD b []).filter p := by
  induction t generalizing b with
  | nil => rfl
  | cons c t ih =>
    rw [List.flatten_cons, List.filter_append]
    cases b with
    | zero =>
      rw [filter_flatten_none t p (fun j e he => h (j + 1) (Nat.succ_ne_zero j) e he)]
      simp
    | succ b =>
      have hc : c.filter p = [] := by
        rw [List.filter_eq_nil_iff]
        intro e he
        simp [h 0 (Nat.succ_ne_zero b).symm e he]
      rw [hc, List.nil_append, List.getD_cons_succ]
      exact ih b (fun j hj e he => h (j + 1) (fun hjb => hj (Nat.succ.inj hjb)) e he)

theorem get_chain_skip {KC : Type} (key_eq : K → KC → Bool) (key : KC)
    (pre post : List (K × V)) (x : K × V) (hx : key_eq x.1 key = false) :
    get_chain key_eq key (pre ++ x :: post) = get_chain key_eq key (pre ++ post) := by
  induction pre with
  | nil => simp [get_chain, hx]
  | cons e tl ih => simp [get_chain, ih]

/-- With the invariant, `remove(k)` does not change what `get` returns for another key. -/
theorem remove_get_other (hasher : K → Nat) (m : hash_map K V) (h : Inv hasher m)
    (k k1 : K) (hne : k1 ≠ k) :
    (m.remove hasher k).2.get_Key hasher k1 = m.get_Key hasher k1 := by
  rcases remove_cases hasher m k with hn | ⟨v, pre, post, hs, hc, _, hr⟩
  · rw [hn]
  · rw [hr]
    have hb : m.bucket_of hasher k < m.table.length :=
      getD_ne_nil_lt _ _ (by rw [hc]; simp)
    have hskip : get_chain (fun a b => decide (a = b)) k1 (pre ++ post) =
        get_chain (fun a b => decide (a = b)) k1 (pre ++ (k, v) :: post) :=
      (get_chain_skip _ k1 pre post (k, v) (by simpa using fun hk => hne hk.symm)).symm
    have hsame : get_chain (fun a b => decide (a = b)) k1
        ((m.table.set (m.bucket_of hasher k) (pre ++ post)).getD
          (to_uint (hasher k1) % m.capacity) []) =
        get_chain (fun a b => decide (a = b)) k1
          (m.table.getD (to_uint (hasher k1) % m.capacity) []) := by
      by_cases hbb : m.bucket_of hasher k = to_uint (hasher k1) % m.capacity
      · rw [← hbb, getD_set_self _ _ _ hb, hc]
        exact hskip
      · rw [getD_set_other _ _ _ _ hbb]
    unfold hash_map.get_Key hash_map.get
    simp only
    rw [hsame, if_neg (Nat.ne_of_gt hs)]
    split
    · next h0 =>
      have hperm : m.table.flatten.Perm
          ((k, v) :: (m.table.set (m.bucket_of hasher k) (pre ++ post)).flatten) :=
        erase_flatten_perm m.table _ (k, v) (pre ++ post) (by rw [hc]; exact List.perm_middle)
      have hlen1 : m.entries.length = 1 := by rw [← h.size_eq]; omega
      have hnil : (m.table.set (m.bucket_of hasher k) (pre ++ post)).flatten = [] := by
        apply List.length_eq_zero.mp
        have := hperm.length_eq
        simp only [hash_map.entries, List.length_cons] at hlen1 this
        omega
      symm
      apply get_chain_none
      intro e he
      have hmem : e ∈ m.entries := (mem_entries m e).mpr ⟨_, he⟩
      have he1 : e ∈ (k, v) :: (m.table.set (m.bucket_of hasher k) (pre ++ post)).flatten :=
        hperm.mem_iff.mp hmem
      rw [hnil] at he1
      have he2 : e = (k, v) := by simpa using he1
      rw [he2]
      simpa using fun hk => hne hk.symm
    · rfl

/-- The nodes of one old chain that land in new bucket `c` form a contiguous block of
that bucket, in reversed order. -/
theorem rehash_block (hasher : K → Nat) (m : hash_map K V)
    (hlen : m.table.length = m.capacity) (b c : Nat) :
    ∃ s1 s3, (m.rehash hasher).table.getD c [] =
      s1 ++ (((m.table.getD b []).filter
        (fun e => decide (to_uint (hasher e.1) % (m.rehash hasher).capacity = c))).reverse
          ++ s3) := by
  rw [rehash_getD hasher m hlen c]
  generalize (fun (e : K × V) =>
    decide (to_uint (hasher e.1) % (m.rehash hasher).capacity = c)) = p
  by_cases hb : b < m.table.length
  · refine ⟨((m.table.drop (b + 1)).flatten.filter p).reverse,
      ((m.table.take b).flatten.filter p).reverse, ?_⟩
    unfold hash_map.entries
    rw [flatten_split m.table b hb]
    simp only [List.filter_append, List.reverse_append, List.append_assoc]
  · have hnil : m.table.getD b [] = [] := by
      simp [List.getD_eq_getElem?_getD, List.getElem?_eq_none (not_lt.mp hb)]
    refine ⟨(m.entries.filter p).reverse, [], ?_⟩
    rw [hnil]
    simp

/-- With every node placed in the bucket of its key, the nodes with key `k` after a
`rehash` are those of the old chain of `k`, reversed. -/
theorem rehash_key_order (hasher : K → Nat) (m : hash_map K V)
    (hlen : m.table.length = m.capacity) (hpl : Placed hasher m.capacity m.table) (k : K) :
    ((m.rehash hasher).table.getD (to_uint (hasher k) % (m.rehash hasher).capacity) []).filter
        (fun e => decide (e.1 = k)) =
      ((m.table.getD (to_uint (hasher k) % m.capacity) []).filter
        (fun e => decide (e.1 = k))).reverse := by
  rw [rehash_getD hasher m hlen, List.filter_reverse, List.filter_filter]
  have hp : (fun (e : K × V) => decide (e.1 = k) &&
      decide (to_uint (hasher e.1) % (m.rehash hasher).capacity
        = to_uint (hasher k) % (m.rehash hasher).capacity)) = fun e => decide (e.1 = k) := by
    funext e
    by_cases he : e.1 = k
    · simp [he]
    · simp [he]
  rw [hp]
  congr 1
  unfold hash_map.entries
  apply filter_flatten_bucket
  intro j hj e he
  have hje := hpl j e he
  simp only [decide_eq_false_iff_not]
  intro hek
  apply hj
  rw [← hje, hek]

/-! ## Sample states -/

theorem sample_map_reachable : Reachable (fun x => x) sample_map :=
  insert_all_reachable (fun x => x) _ _ Reachable.empty

theorem full_map_reachable : Reachable (fun x => x) full_map :=
  insert_all_reachable (fun x => x) _ _ Reachable.empty

end lemmas

/-! ## The contract of the map -/

section claims

variable {K V : Type} [DecidableEq K]

/-- C1 (membership round-trip): after inserting, in order, a list of pairs with pairwise
distinct keys into a freshly constructed map, `get(k)` returns the value inserted with `k`,
for every inserted key and every hasher, across all rehashes on the way. -/
theorem membership_round_trip (hasher : K → Nat) (l : List (K × V))
    (hd : (l.map Prod.fst).Nodup) (k : K) (v : V) (hkv : (k, v) ∈ l) :
    ((hash_map.empty : hash_map K V).insert_all hasher l).get_Key hasher k = some v := by
  have hinv := reachable_inv hasher _
    (insert_all_reachable hasher (hash_map.empty : hash_map K V) l Reachable.empty)
  have hperm := insert_all_entries hasher (hash_map.empty : hash_map K V) l (empty_inv hasher)
  have hmem : ∀ e, e ∈ ((hash_map.empty : hash_map K V).insert_all hasher l).entries ↔ e ∈ l := by
    intro e
    rw [hperm.mem_iff]
    simp [hash_map.entries, hash_map.empty]
  obtain ⟨w, hw1, hw2⟩ := get_of_mem_entries hasher _ hinv k v ((hmem _).mpr hkv)
  rw [hw1, nodup_keys_unique l hd k w v ((hmem _).mp hw2) hkv]

/-- Witness for C1: twelve distinct keys, so that two rehashes happen on the way; the key
`1` collides with `11` in the first table. -/
theorem membership_round_trip_witness :
    ((hash_map.empty : hash_map Nat Nat).insert_all (fun x => x)
      [(1, 10), (2, 20), (3, 30), (4, 40), (5, 50), (6, 60), (7, 70), (8, 80), (9, 90),
       (11, 110), (21, 210), (41, 410)]).get_Key (fun x => x) 11 = some 110 :=
  membership_round_trip (fun x => x)
    [(1, 10), (2, 20), (3, 30), (4, 40), (5, 50), (6, 60), (7, 70), (8, 80), (9, 90),
     (11, 110), (21, 210), (41, 410)] (by decide) 11 110 (by decide)

/-- C3 (duplicate-key LIFO before a rehash): in a reachable state, after `insert(k, v1)` and
then `insert(k, v2)` where the second insert does not rehash, `get(k)` returns `v2`,
`remove(k)` returns `v2` and restores the state before the second insert, and a subsequent
`get(k)` returns `v1`. -/
theorem duplicate_key_lifo (hasher : K → Nat) (m : hash_map K V) (hm : Reachable hasher m)
    (k : K) (v1 v2 : V) (hno : (m.insert hasher k v1).rehash_needed = false) :
    ((m.insert hasher k v1).insert hasher k v2).get_Key hasher k = some v2 ∧
    (((m.insert hasher k v1).insert hasher k v2).remove hasher k).1 = some v2 ∧
    (((m.insert hasher k v1).insert hasher k v2).remove hasher k).2 = m.insert hasher k v1 ∧
    (((m.insert hasher k v1).insert hasher k v2).remove hasher k).2.get_Key hasher k
      = some v1 := by
  have h0 := reachable_inv hasher m hm
  have h1 := insert_inv hasher m k v1 h0
  have hlt : (m.insert hasher k v1).size < (m.insert hasher k v1).capacity := by
    simpa [hash_map.rehash_needed] using hno
  rw [insert_remove hasher _ k v2 h1 hlt]
  exact ⟨insert_get hasher _ k v2 h1, rfl, rfl, insert_get hasher m k v1 h0⟩

/-- Witness for C3: the key `3` is inserted twice into a map that already holds key `13` in
the same bucket. -/
theorem duplicate_key_lifo_witness :
    ((((hash_map.empty : hash_map Nat Nat).insert (fun x => x) 13 0).insert
        (fun x => x) 3 1).insert (fun x => x) 3 2).get_Key (fun x => x) 3 = some 2 ∧
    (((((hash_map.empty : hash_map Nat Nat).insert (fun x => x) 13 0).insert
        (fun x => x) 3 1).insert (fun x => x) 3 2).remove (fun x => x) 3).1 = some 2 ∧
    (((((hash_map.empty : hash_map Nat Nat).insert (fun x => x) 13 0).insert
        (fun x => x) 3 1).insert (fun x => x) 3 2).remove (fun x => x) 3).2
      = ((hash_map.empty : hash_map Nat Nat).insert (fun x => x) 13 0).insert
        (fun x => x) 3 1 ∧
    (((((hash_map.empty : hash_map Nat Nat).insert (fun x => x) 13 0).insert
        (fun x => x) 3 1).insert (fun x => x) 3 2).remove (fun x => x) 3).2.get_Key
        (fun x => x) 3 = some 1 :=
  duplicate_key_lifo (fun x => x) _ (Reachable.insert _ 13 0 Reachable.empty) 3 1 2
    (by decide)

/-- C4 (remove of an absent key): in a reachable state, `remove(k)` of a key with no live
entry returns the absent result and leaves the whole state (size, capacity, every bucket
chain) unchanged. -/
theorem remove_absent (hasher : K → Nat) (m : hash_map K V) (_hm : Reachable hasher m)
    (k : K) (hk : ∀ e ∈ m.entries, e.1 ≠ k) : m.remove hasher k = (none, m) := by
  rcases remove_cases hasher m k with hn | ⟨v, pre, post, _, hc, _, _⟩
  · exact hn
  · exfalso
    refine hk (k, v) ((mem_entries m _).mpr ⟨m.bucket_of hasher k, ?_⟩) rfl
    rw [hc]
    exact List.mem_append_right _ (List.mem_cons_self _ _)

/-- Witness for C4: key `13` was never inserted but hashes to the bucket of the live key `3`. -/
theorem remove_absent_witness :
    (∀ e ∈ ((hash_map.empty : hash_map Nat Nat).insert (fun x => x) 3 1).entries, e.1 ≠ 13) ∧
    ((hash_map.empty : hash_map Nat Nat).insert (fun x => x) 3 1).remove (fun x => x) 13
      = (none, (hash_map.empty : hash_map Nat Nat).insert (fun x => x) 3 1) :=
  ⟨by decide, remove_absent (fun x => x) _ (Reachable.insert _ 3 1 Reachable.empty) 13
    (by decide)⟩

/-- C5 (remove of a present key): in a reachable state, for a key `k` with a live entry,
the chain of the bucket of `k` splits as `pre ++ (k, v) :: post` with no key `k` in `pre`;
`get(k)` returns `v` beforehand, `remove(k)` returns `v`, the chain becomes `pre ++ post`
(remaining nodes in the same order), every other bucket is untouched, the size drops by
exactly one and the capacity is unchanged. -/
theorem remove_present (hasher : K → Nat) (m : hash_map K V) (hm : Reachable hasher m)
    (k : K) (hk : ∃ e ∈ m.entries, e.1 = k) :
    ∃ v pre post,
      m.table.getD (to_uint (hasher k) % m.capacity) [] = pre ++ (k, v) :: post ∧
      (∀ e ∈ pre, e.1 ≠ k) ∧
      m.get_Key hasher k = some v ∧
      (m.remove hasher k).1 = some v ∧
      (m.remove hasher k).2.table.length = m.table.length ∧
      (m.remove hasher k).2.table.getD (to_uint (hasher k) % m.capacity) [] = pre ++ post ∧
      (∀ b, b ≠ to_uint (hasher k) % m.capacity →
        (m.remove hasher k).2.table.getD b [] = m.table.getD b []) ∧
      (m.remove hasher k).2.size + 1 = m.size ∧
      (m.remove hasher k).2.capacity = m.capacity := by
  have hinv := reachable_inv hasher m hm
  obtain ⟨e, he, hek⟩ := hk
  have hb := mem_bucket_of_mem_entries hasher m hinv e he
  rw [hek] at hb
  rcases remove_cases hasher m k with hn | ⟨v, pre, post, hs, hc, hpre, hr⟩
  · exfalso
    have hsz : m.size ≠ 0 := by
      rw [hinv.size_eq]; exact Nat.ne_of_gt (List.length_pos_of_mem he)
    unfold hash_map.remove at hn
    rw [if_neg hsz] at hn
    simp only at hn
    cases hrc : remove_chain k (m.table.getD (to_uint (hasher k) % m.capacity) []) with
    | none => exact (remove_chain_none k _).mp hrc e hb hek
    | some p => rw [hrc] at hn; simp at hn
  · have hlt : m.bucket_of hasher k < m.table.length :=
      getD_ne_nil_lt _ _ (by rw [hc]; simp)
    refine ⟨v, pre, post, hc, hpre, ?_, ?_, ?_, ?_, ?_, ?_, ?_⟩
    · unfold hash_map.get_Key hash_map.get
      rw [if_neg (Nat.ne_of_gt hs)]
      have hc1 : m.table.getD (to_uint (hasher k) % m.capacity) [] = pre ++ (k, v) :: post := hc
      rw [hc1]
      exact get_chain_append _ k pre post (k, v) (fun x hx => by simpa using hpre x hx)
        (by simp)
    · rw [hr]
    · rw [hr]; simp
    · rw [hr]; exact getD_set_self _ _ _ hlt
    · intro b hbne
      rw [hr]
      exact getD_set_other _ _ _ _ (fun h => hbne h.symm)
    · rw [hr]; simp only; omega
    · rw [hr]

/-- Witness for C5: the key `3` lies second in a chain of three nodes (`23`, `3`, `13`). -/
theorem remove_present_witness :
    (∃ e ∈ ((hash_map.empty : hash_map Nat Nat).insert_all (fun x => x)
        [(13, 1), (3, 2), (23, 3)]).entries, e.1 = 3) ∧
    ∃ v pre post,
      ((hash_map.empty : hash_map Nat Nat).insert_all (fun x => x)
          [(13, 1), (3, 2), (23, 3)]).table.getD
        (to_uint ((fun x => x) 3) % ((hash_map.empty : hash_map Nat Nat).insert_all
          (fun x => x) [(13, 1), (3, 2), (23, 3)]).capacity) [] = pre ++ (3, v) :: post ∧
      (∀ e ∈ pre, e.1 ≠ 3) ∧
      ((hash_map.empty : hash_map Nat Nat).insert_all (fun x => x)
          [(13, 1), (3, 2), (23, 3)]).get_Key (fun x => x) 3 = some v ∧
      (((hash_map.empty : hash_map Nat Nat).insert_all (fun x => x)
          [(13, 1), (3, 2), (23, 3)]).remove (fun x => x) 3).1 = some v ∧
      (((hash_map.empty : hash_map Nat Nat).insert_all (fun x => x)
          [(13, 1), (3, 2), (23, 3)]).remove (fun x => x) 3).2.table.length =
        ((hash_map.empty : hash_map Nat Nat).insert_all (fun x => x)
          [(13, 1), (3, 2), (23, 3)]).table.length ∧
      (((hash_map.empty : hash_map Nat Nat).insert_all (fun x => x)
          [(13, 1), (3, 2), (23, 3)]).remove (fun x => x) 3).2.table.getD
        (to_uint ((fun x => x) 3) % ((hash_map.empty : hash_map Nat Nat).insert_all
          (fun x => x) [(13, 1), (3, 2), (23, 3)]).capacity) [] = pre ++ post ∧
      (∀ b, b ≠ to_uint ((fun x => x) 3) % ((hash_map.empty : hash_map Nat Nat).insert_all
          (fun x => x) [(13, 1), (3, 2), (23, 3)]).capacity →
        (((hash_map.empty : hash_map Nat Nat).insert_all (fun x => x)
          [(13, 1), (3, 2), (23, 3)]).remove (fun x => x) 3).2.table.getD b [] =
        ((hash_map.empty : hash_map Nat Nat).insert_all (fun x => x)
          [(13, 1), (3, 2), (23, 3)]).table.getD b []) ∧
      (((hash_map.empty : hash_map Nat Nat).insert_all (fun x => x)
          [(13, 1), (3, 2), (23, 3)]).remove (fun x => x) 3).2.size + 1 =
        ((hash_map.empty : hash_map Nat Nat).insert_all (fun x => x)
          [(13, 1), (3, 2), (23, 3)]).size ∧
      (((hash_map.empty : hash_map Nat Nat).insert_all (fun x => x)
          [(13, 1), (3, 2), (23, 3)]).remove (fun x => x) 3).2.capacity =
        ((hash_map.empty : hash_map Nat Nat).insert_all (fun x => x)
          [(13, 1), (3, 2), (23, 3)]).capacity :=
  ⟨by decide, remove_present (fun x => x) _
    (insert_all_reachable (fun x => x) _ [(13, 1), (3, 2), (23, 3)] Reachable.empty) 3
    (by decide)⟩

/-- C7 (heterogeneous lookup): in a reachable state, if the hasher gives the compatible key
`kc` the same hash as the stored-type key `k`, and `kc` compares equal to exactly the stored
keys that `k` equals, then `get(kc)` and `get(k)` return the same result. -/
theorem heterogeneous_lookup {KC : Type} (hasher : K → Nat) (hasherC : KC → Nat)
    (key_eq : K → KC → Bool) (m : hash_map K V) (_hm : Reachable hasher m) (k : K) (kc : KC)
    (hh : hasherC kc = hasher k) (heq : ∀ e ∈ m.entries, key_eq e.1 kc = decide (e.1 = k)) :
    m.get hasherC key_eq kc = m.get_Key hasher k := by
  unfold hash_map.get_Key hash_map.get
  rw [hh]
  split
  · rfl
  · exact get_chain_congr _ _ _ _ _ (fun e he => heq e ((mem_entries m e).mpr ⟨_, he⟩))

/-- C10 (bucket placement): in a reachable state the bucket array has `capacity` slots and
every node in the chain of `table[b]` has `((unsigned int)hasher(key)) % capacity == b`. -/
theorem bucket_placement (hasher : K → Nat) (m : hash_map K V) (hm : Reachable hasher m)
    (b : Nat) (e : K × V) (he : e ∈ m.table.getD b []) :
    m.table.length = m.capacity ∧ b < m.capacity ∧ to_uint (hasher e.1) % m.capacity = b := by
  have hinv := reachable_inv hasher m hm
  refine ⟨hinv.length_eq, ?_, hinv.placed b e he⟩
  rw [← hinv.length_eq]
  exact getD_ne_nil_lt _ _ (List.ne_nil_of_mem he)

/-- Witness for C7: keys are owning strings, the compatible key is a character list (a
view of the content); both are hashed by their length. -/
theorem heterogeneous_lookup_witness :
    (∀ e ∈ (((hash_map.empty : hash_map String Nat).insert String.length "ab" 1).insert
        String.length "cd" 2).entries,
      (fun (s : String) (cs : List Char) => decide (s.data = cs)) e.1 ['c', 'd']
        = decide (e.1 = "cd")) ∧
    (((hash_map.empty : hash_map String Nat).insert String.length "ab" 1).insert
        String.length "cd" 2).get List.length
        (fun (s : String) (cs : List Char) => decide (s.data = cs)) ['c', 'd'] =
    (((hash_map.empty : hash_map String Nat).insert String.length "ab" 1).insert
        String.length "cd" 2).get_Key String.length "cd" :=
  ⟨by decide, heterogeneous_lookup String.length List.length
    (fun (s : String) (cs : List Char) => decide (s.data = cs)) _
    (Reachable.insert _ "cd" 2 (Reachable.insert _ "ab" 1 Reachable.empty)) "cd" ['c', 'd']
    (by decide) (by decide)⟩

/-- Witness for C10: the node `(13, 1)` sits in bucket `3` of a table of capacity `10`. -/
theorem bucket_placement_witness :
    (13, 1) ∈ ((hash_map.empty : hash_map Nat Nat).insert_all (fun x => x)
      [(13, 1), (3, 2)]).table.getD 3 [] ∧
    ((hash_map.empty : hash_map Nat Nat).insert_all (fun x => x) [(13, 1), (3, 2)]).table.length
      = ((hash_map.empty : hash_map Nat Nat).insert_all (fun x => x) [(13, 1), (3, 2)]).capacity ∧
    3 < ((hash_map.empty : hash_map Nat Nat).insert_all (fun x => x) [(13, 1), (3, 2)]).capacity ∧
    to_uint ((fun x => x) (13, 1).1) %
      ((hash_map.empty : hash_map Nat Nat).insert_all (fun x => x) [(13, 1), (3, 2)]).capacity
      = 3 :=
  ⟨by decide, bucket_placement (fun x => x) _
    (insert_all_reachable (fun x => x) _ [(13, 1), (3, 2)] Reachable.empty) 3 (13, 1)
    (by decide)⟩

/-- C6 (growth floor and doubling): after `n` inserts into a freshly constructed map the
size is `n`; the capacity is exactly `10` for `1 ≤ n ≤ 10` and `20` (at least twice the size
`10` at which the rehash was triggered) for `n = 11`; and among the first twelve inserts
exactly the 1st and the 11th find `_size >= _capacity` and rehash. -/
theorem growth_floor_and_doubling (hasher : K → Nat) (l : List (K × V))
    (hl : l.length ≤ 11) :
    ((hash_map.empty : hash_map K V).insert_all hasher l).size = l.length ∧
    (1 ≤ l.length → l.length ≤ 10 →
      ((hash_map.empty : hash_map K V).insert_all hasher l).capacity = 10) ∧
    (l.length = 11 →
      ((hash_map.empty : hash_map K V).insert_all hasher l).capacity = 20 ∧
      2 * ((hash_map.empty : hash_map K V).insert_all hasher (l.take 10)).size ≤
        ((hash_map.empty : hash_map K V).insert_all hasher l).capacity) ∧
    (((hash_map.empty : hash_map K V).insert_all hasher l).rehash_needed = true ↔
      l.length = 0 ∨ l.length = 10) := by
  obtain ⟨h1, h2⟩ := growth_schedule hasher l hl
  refine ⟨h1, ?_, ?_, ?_⟩
  · intro ha hb
    rw [h2, if_neg (by omega), if_pos hb]
  · intro ha
    have h3 := (growth_schedule hasher (l.take 10) (by rw [List.length_take]; omega)).1
    rw [List.length_take] at h3
    rw [h2, h3, if_neg (by omega), if_neg (by omega)]
    exact ⟨rfl, by omega⟩
  · unfold hash_map.rehash_needed
    rw [h1, h2, decide_eq_true_iff]
    split_ifs <;> omega

/-- Witness for C6: the eleven inserts `0 ↦ 0, …, 10 ↦ 10` (`growth_inputs`). -/
theorem growth_floor_and_doubling_witness :
    growth_inputs.length ≤ 11 ∧
    ((hash_map.empty : hash_map Nat Nat).insert_all (fun x => x) growth_inputs).size = growth_inputs.length ∧
    (1 ≤ growth_inputs.length → growth_inputs.length ≤ 10 → ((hash_map.empty : hash_map Nat Nat).insert_all (fun x => x) growth_inputs).capacity = 10) ∧
    (growth_inputs.length = 11 →
      ((hash_map.empty : hash_map Nat Nat).insert_all (fun x => x) growth_inputs).capacity = 20 ∧
      2 * ((hash_map.empty : hash_map Nat Nat).insert_all (fun x => x)
        (growth_inputs.take 10)).size ≤ ((hash_map.empty : hash_map Nat Nat).insert_all (fun x => x) growth_inputs).capacity) ∧
    (((hash_map.empty : hash_map Nat Nat).insert_all (fun x => x) growth_inputs).rehash_needed = true ↔ growth_inputs.length = 0 ∨ growth_inputs.length = 10) :=
  ⟨by decide, growth_floor_and_doubling (fun x => x) growth_inputs (by decide)⟩

/-- C8 (LIFO shadowing is lost across a rehash): with the identity hasher, insert `(0, 1)`
and then `(0, 2)` into a fresh map, then the keys `1, …, 9`; the last of these inserts finds
`_size >= _capacity` and rehashes, and afterwards `get(0)` returns the older value `1`. -/
theorem lifo_lost_across_rehash :
    ∃ (k v1 v2 : Nat) (before : List (Nat × Nat)) (trigger : Nat × Nat)
      (after : List (Nat × Nat)),
      v1 ≠ v2 ∧
      (∀ e ∈ before ++ trigger :: after, e.1 ≠ k) ∧
      ((((hash_map.empty : hash_map Nat Nat).insert (fun x => x) k v1).insert
        (fun x => x) k v2).insert_all (fun x => x) before).rehash_needed = true ∧
      ((((hash_map.empty : hash_map Nat Nat).insert (fun x => x) k v1).insert
        (fun x => x) k v2).get_Key (fun x => x) k = some v2) ∧
      ((((hash_map.empty : hash_map Nat Nat).insert (fun x => x) k v1).insert
        (fun x => x) k v2).insert_all (fun x => x)
          (before ++ trigger :: after)).get_Key (fun x => x) k = some v1 :=
  ⟨0, 1, 2, [(1, 0), (2, 0), (3, 0), (4, 0), (5, 0), (6, 0), (7, 0), (8, 0)], (9, 0), [],
    by decide, by decide, by decide, by decide, by decide⟩

/-- C11 (size invariant): in a reachable state `size` equals the total number of nodes
over all bucket chains, and `empty()` returns true exactly when no entry is live. -/
theorem size_invariant (hasher : K → Nat) (m : hash_map K V) (hm : Reachable hasher m) :
    m.size = (m.table.map List.length).sum ∧ (m.is_empty = true ↔ m.entries = []) := by
  have hinv := reachable_inv hasher m hm
  have hsz : m.size = (m.table.map List.length).sum := by
    rw [hinv.size_eq]; exact List.length_flatten _
  refine ⟨hsz, ?_⟩
  unfold hash_map.is_empty
  rw [beq_iff_eq, hinv.size_eq]
  exact List.length_eq_zero

/-- Witness for C11: `sample_map` has four nodes in two chains. -/
theorem size_invariant_witness :
    sample_map.size = (sample_map.table.map List.length).sum ∧
    (sample_map.is_empty = true ↔ sample_map.entries = []) :=
  size_invariant (fun x => x) sample_map sample_map_reachable

/-- C12 (rehash postcondition): on a state whose bucket array has `capacity` slots, `rehash`
sets the capacity to `max(10, 2 * size)`, keeps `size`, allocates that many slots, keeps the
multiset of entries, and places each node in the bucket of its truncated hash modulo the
new capacity. -/
theorem rehash_postcondition (hasher : K → Nat) (m : hash_map K V)
    (hlen : m.table.length = m.capacity) :
    (m.rehash hasher).capacity = max 10 (2 * m.size) ∧
    (m.rehash hasher).size = m.size ∧
    (m.rehash hasher).table.length = (m.rehash hasher).capacity ∧
    (m.rehash hasher).entries.Perm m.entries ∧
    ∀ b e, e ∈ (m.rehash hasher).table.getD b [] →
      to_uint (hasher e.1) % (m.rehash hasher).capacity = b := by
  obtain ⟨h1, h2, h3⟩ := rehash_spec hasher m hlen
  refine ⟨?_, rfl, h1, h2, h3⟩
  rw [rehash_capacity]
  split <;> omega

/-- Witness for C12: `full_map` (ten nodes in ten slots) is rehashed to twenty slots. -/
theorem rehash_postcondition_witness :
    full_map.table.length = full_map.capacity ∧
    (full_map.rehash (fun x => x)).capacity = max 10 (2 * full_map.size) ∧
    (full_map.rehash (fun x => x)).size = full_map.size ∧
    (full_map.rehash (fun x => x)).table.length = (full_map.rehash (fun x => x)).capacity ∧
    (full_map.rehash (fun x => x)).entries.Perm full_map.entries ∧
    ∀ b e, e ∈ (full_map.rehash (fun x => x)).table.getD b [] →
      to_uint ((fun x => x) e.1) % (full_map.rehash (fun x => x)).capacity = b :=
  ⟨by decide, rehash_postcondition (fun x => x) full_map (by decide)⟩

/-- C17 (load invariant): in a reachable state `size <= capacity`, so `capacity > 0`
whenever `size > 0` (the modulo in `get` and `remove`, taken only when `size != 0`, never
divides by zero), and the capacity after the conditional rehash of `insert` is positive
(`FRG_ASSERT(_capacity > 0)` does not fail, the modulo in `insert` is safe). -/
theorem load_invariant (hasher : K → Nat) (m : hash_map K V) (hm : Reachable hasher m) :
    m.size ≤ m.capacity ∧ (0 < m.size → 0 < m.capacity) ∧
    0 < (if m.size ≥ m.capacity then m.rehash hasher else m).capacity := by
  have hinv := reachable_inv hasher m hm
  exact ⟨hinv.load, fun hs => Nat.lt_of_lt_of_le hs hinv.load, insert_assert hasher m⟩

/-- Witness for C17: `full_map` has `size = capacity = 10`. -/
theorem load_invariant_witness :
    full_map.size ≤ full_map.capacity ∧ (0 < full_map.size → 0 < full_map.capacity) ∧
    0 < (if full_map.size ≥ full_map.capacity then full_map.rehash (fun x => x)
      else full_map).capacity :=
  load_invariant (fun x => x) full_map full_map_reachable

/-- C18 (insert then get): in a reachable state, right after `insert(k, v)` the call
`get(k)` returns `v`, whether or not `k` already had live entries and whether or not the
insert rehashed. -/
theorem insert_then_get (hasher : K → Nat) (m : hash_map K V) (hm : Reachable hasher m)
    (k : K) (v : V) : (m.insert hasher k v).get_Key hasher k = some v :=
  insert_get hasher m k v (reachable_inv hasher m hm)

/-- Witness for C18: key `0` already has two live entries in `full_map`, and the insert
rehashes. -/
theorem insert_then_get_witness :
    (full_map.insert (fun x => x) 0 9).get_Key (fun x => x) 0 = some 9 :=
  insert_then_get (fun x => x) full_map full_map_reachable 0 9

/-- C19 (remove does not disturb other keys): in a reachable state, for keys `k1 ≠ k`,
`get(k1)` returns the same result after `remove(k)` as before it. -/
theorem remove_keeps_other_keys (hasher : K → Nat) (m : hash_map K V)
    (hm : Reachable hasher m) (k k1 : K) (hne : k1 ≠ k) :
    (m.remove hasher k).2.get_Key hasher k1 = m.get_Key hasher k1 :=
  remove_get_other hasher m (reachable_inv hasher m hm) k k1 hne

/-- Witness for C19: keys `3` and `13` share bucket `3` of `sample_map`, and `13` lies
behind `3` in the chain. -/
theorem remove_keeps_other_keys_witness :
    (13 : Nat) ≠ 3 ∧
    (sample_map.remove (fun x => x) 3).2.get_Key (fun x => x) 13
      = sample_map.get_Key (fun x => x) 13 :=
  ⟨by decide, remove_keeps_other_keys (fun x => x) sample_map sample_map_reachable 3 13
    (by decide)⟩

/-- C20 (insert/remove round trip): in a reachable state with `size < capacity`,
`insert(k, v)` followed by `remove(k)` returns `v` and restores the state exactly (size,
capacity and every bucket chain). -/
theorem insert_remove_round_trip (hasher : K → Nat) (m : hash_map K V)
    (hm : Reachable hasher m) (hs : m.size < m.capacity) (k : K) (v : V) :
    (m.insert hasher k v).remove hasher k = (some v, m) :=
  insert_remove hasher m k v (reachable_inv hasher m hm) hs

/-- Witness for C20: key `3` already has a live entry in `sample_map`. -/
theorem insert_remove_round_trip_witness :
    sample_map.size < sample_map.capacity ∧
    (sample_map.insert (fun x => x) 3 9).remove (fun x => x) 3 = (some 9, sample_map) :=
  ⟨by decide, insert_remove_round_trip (fun x => x) sample_map sample_map_reachable
    (by decide) 3 9⟩

/-- C13 (rehash reverses intra-bucket order), on a state whose bucket array has `capacity`
slots.  The nodes of an old chain that land in one new bucket form a contiguous block of it,
reversed; so if `x` precedes `y` in an old chain and both land in the same new bucket, `y`
precedes `x` there; and when every node sits in the bucket of its key, the entries of a key
`k` appear in the new chain of `k` in exactly the reverse of their old chain order. -/
theorem rehash_reverses_order (hasher : K → Nat) (m : hash_map K V)
    (hlen : m.table.length = m.capacity) :
    (∀ b c, ∃ s1 s3, (m.rehash hasher).table.getD c [] =
      s1 ++ (((m.table.getD b []).filter
        (fun e => decide (to_uint (hasher e.1) % (m.rehash hasher).capacity = c))).reverse
          ++ s3)) ∧
    (∀ b x y l1 l2 l3, m.table.getD b [] = l1 ++ x :: (l2 ++ y :: l3) →
      to_uint (hasher y.1) % (m.rehash hasher).capacity
        = to_uint (hasher x.1) % (m.rehash hasher).capacity →
      ∃ r1 r2 r3, (m.rehash hasher).table.getD
        (to_uint (hasher x.1) % (m.rehash hasher).capacity) [] = r1 ++ y :: (r2 ++ x :: r3)) ∧
    (∀ k, (∀ b e, e ∈ m.table.getD b [] → to_uint (hasher e.1) % m.capacity = b) →
      ((m.rehash hasher).table.getD
          (to_uint (hasher k) % (m.rehash hasher).capacity) []).filter
          (fun e => decide (e.1 = k)) =
        ((m.table.getD (to_uint (hasher k) % m.capacity) []).filter
          (fun e => decide (e.1 = k))).reverse) := by
  refine ⟨rehash_block hasher m hlen, ?_, fun k hpl => rehash_key_order hasher m hlen hpl k⟩
  intro b x y l1 l2 l3 hc hxy
  obtain ⟨s1, s3, hs⟩ := rehash_block hasher m hlen b
    (to_uint (hasher x.1) % (m.rehash hasher).capacity)
  rw [hs, hc]
  have key : ∀ p : K × V → Bool, p x = true → p y = true →
      ∃ r1 r2 r3, s1 ++ (((l1 ++ x :: (l2 ++ y :: l3)).filter p).reverse ++ s3)
        = r1 ++ y :: (r2 ++ x :: r3) := by
    intro p hx hy
    refine ⟨s1 ++ (l3.filter p).reverse, (l2.filter p).reverse,
      (l1.filter p).reverse ++ s3, ?_⟩
    simp [List.filter_append, List.filter_cons, hx, hy]
  exact key _ (by simp) (by simp [hxy])

/-- Witness for C13: in `full_map` the chain of bucket `0` is `(10, 3), (0, 2), (0, 1)`;
after the rehash to twenty slots `(0, 1)` precedes `(0, 2)` in bucket `0`. -/
theorem rehash_reverses_order_witness :
    full_map.table.length = full_map.capacity ∧
    full_map.table.getD 0 [] = [(10, 3)] ++ (0, 2) :: ([] ++ (0, 1) :: []) ∧
    ∃ r1 r2 r3, (full_map.rehash (fun x => x)).table.getD
      (to_uint ((fun x => x) (0, 2).1) % (full_map.rehash (fun x => x)).capacity) []
        = r1 ++ (0, 1) :: (r2 ++ (0, 2) :: r3) :=
  ⟨by decide, by decide,
    (rehash_reverses_order (fun x => x) full_map (by decide)).2.1 0 (0, 2) (0, 1)
      [(10, 3)] [] [] (by decide) (by decide)⟩

end claims

end frg
